import Mathlib

/-!
# Verification of the LZW compressor in `src/main.cpp`

Shallow embedding of the `compress` and `decompress` functions of the
repository.  Machine types are modelled as `Nat`:

* `CodeType` (`std::uint16_t`) becomes `Nat`, with the code stream
  serialised to bytes via explicit `% 256` / `/ 256` (the host is
  little-endian, and `char` is signed, i.e. `CHAR_MIN = -128`,
  `CHAR_MAX = 127`, as on the x86 targets this program is built for).
* a byte (`char`) is a `Nat < 256`, identified with its unsigned value.

The encoder's `std::map<std::pair<CodeType,char>, CodeType>` always maps a
key to the entry count at the moment of its insertion, so it is modelled by
the list of its keys in insertion order: `at`/`count` become a positional
`findIdx?` lookup.  The decoder's `std::vector<std::pair<CodeType,char>>`
is the same list type, indexed by code.  C++ exceptions become `Except`;
the undefined behaviour of calling `.front()` on an empty vector is made
observable as the distinguished outcome `DecodeError.emptyFront`.
-/

set_option maxRecDepth 4000

namespace LZW

/-- An entry of either dictionary: a (prefix code, byte) pair.
In the encoder this is a key whose value is its insertion index;
in the decoder it is the entry stored at its index. -/
abbrev Entry := Nat × Nat

/-- `globals::dms`, the dictionary maximum size and the CLEAR sentinel:
`std::numeric_limits<std::uint16_t>::max()`. -/
def dms : Nat := 65535

/-- The unsigned byte value of the `i`-th `char` enumerated from
`CHAR_MIN = -128` to `CHAR_MAX = 127` (signed `char`, as on x86):
the loop `for (long int c = minc; c <= maxc; ++c)` visits the bytes
`0x80, 0x81, …, 0xFF, 0x00, …, 0x7F`. -/
def charOfIdx (n : Nat) : Nat := (n + 128) % 256

/-- The dictionary code that the seeding loop assigns to the byte `b`:
the position of `b` in the `CHAR_MIN..CHAR_MAX` enumeration. -/
def baseCode (b : Nat) : Nat := (b + 128) % 256

/-- The dictionary contents produced by `reset_dictionary` (identical in
`compress` and `decompress`): 256 base entries, entry `n` being
`(dms, static_cast<char>(CHAR_MIN + n))`, i.e. prefix `CLEAR` and the
`n`-th byte of the signed-char enumeration. -/
def initDict : List Entry := (List.range 256).map fun n => (dms, charOfIdx n)

/-- `dictionary.count(key) / dictionary.at(key)` on the encoder map,
expressed on the key list: the insertion index of `key`, if present. -/
def dictLookup (d : List Entry) (key : Entry) : Option Nat :=
  d.findIdx? fun e => e == key

/-- The dictionary reset performed at the top of each loop iteration:
`if (dictionary.size() == globals::dms) reset_dictionary();`. -/
def effDict (d : List Entry) : List Entry :=
  if d.length = dms then initDict else d

/-- State of `compress`: the dictionary and the current index `i`. -/
structure EncState where
  dict : List Entry
  i : Nat
  deriving DecidableEq

/-- State of `decompress`: the dictionary and the previous code `i`. -/
structure DecState where
  dict : List Entry
  i : Nat
  deriving DecidableEq

/-- One iteration of the `while (is.get(c))` loop of `compress` on the
byte `c`: reset the dictionary when full, then either extend the current
match (key `(i, c)` present) or insert `(i, c)`, emit the previous code
`i`, and restart the match at the base code of `c`. -/
def compressStep (st : EncState) (c : Nat) : EncState × Option Nat :=
  let d := effDict st.dict
  match dictLookup d (st.i, c) with
  | some j => (⟨d, j⟩, none)
  | none =>
      let d' := d ++ [(st.i, c)]
      (⟨d', (dictLookup d' (dms, c)).getD 0⟩, some st.i)

/-- The whole `while (is.get(c))` loop of `compress`, from a given state.
Each emitted code is tagged with whether the dictionary reset fired in the
iteration that emitted it (the reset always happens in an emitting
iteration), which lets the reset points be stated and compared with the
decoder's. -/
def compressRun : EncState → List Nat → EncState × List (Nat × Bool)
  | st, [] => (st, [])
  | st, c :: rest =>
      let f := decide (st.dict.length = dms)
      let p := compressStep st c
      let r := compressRun p.1 rest
      (r.1, (match p.2 with | some k => [(k, f)] | none => []) ++ r.2)

/-- `compress` on a byte list, with reset tags: the main loop followed by
the final flush `if (i != globals::dms) os.write(&i, …)` (no reset check
happens at the flush, so its tag is `false`). -/
def compressTagged (l : List Nat) : List (Nat × Bool) :=
  let r := compressRun ⟨initDict, dms⟩ l
  r.2 ++ (if r.1.i = dms then [] else [(r.1.i, false)])

/-- The code stream written by `compress` for the input byte list `l`. -/
def compressCodes (l : List Nat) : List Nat :=
  (compressTagged l).map Prod.fst

/-- `os.write(reinterpret_cast<const char*>(&i), sizeof(CodeType))`:
a 16-bit code as its two bytes in little-endian (host) order. -/
def codeToBytes (k : Nat) : List Nat := [k % 256, k / 256]

/-- The byte stream written by `compress` for the input byte list `l`. -/
def compressBytes (l : List Nat) : List Nat :=
  (compressCodes l).flatMap codeToBytes

/-- The ways `decompress` fails:
* `invalidCode` — `throw std::runtime_error("invalid compressed code")`;
* `corruptStream` — `throw std::runtime_error("corrupted compressed file")`;
* `emptyFront` — the undefined behaviour of `.front()` on an empty
  `std::vector`, made observable as an explicit outcome. -/
inductive DecodeError
  | invalidCode
  | corruptStream
  | emptyFront
  deriving DecidableEq

deriving instance DecidableEq for Except

/-- The loop body of the `rebuild_string` lambda, with explicit fuel:
follow the prefix chain from `k` until the sentinel `dms`, collecting the
entry bytes (the C++ collects them in reverse and reverses at the end;
this recursion produces the reversed, i.e. original, order directly).
An out-of-range code yields `[]` (the C++ `at` would throw; the decoder
only ever calls this in range). -/
def rebuildAux (d : List Entry) : Nat → Nat → List Nat
  | 0, _ => []
  | fuel + 1, k =>
      if k = dms then []
      else
        match d[k]? with
        | some e => rebuildAux d fuel e.1 ++ [e.2]
        | none => []

/-- The `rebuild_string` lambda of `decompress`.  The fuel `d.length + 1`
is enough for every chain of a well-formed dictionary, whose prefix codes
strictly decrease. -/
def rebuildString (d : List Entry) (k : Nat) : List Nat :=
  rebuildAux d (d.length + 1) k

/-- One iteration of the `while (is.read(&k, …))` loop of `decompress` on
the code `k`: reset the dictionary when full, reject a code beyond the
dictionary (`invalidCode`), handle the self-reference case
`k == dictionary.size()`, otherwise rebuild the string for `k` and record
the new entry when a previous code exists.  The two `.front()` calls on a
possibly-empty rebuilt string surface as `emptyFront`. -/
def decompressStep (st : DecState) (k : Nat) :
    Except DecodeError (DecState × List Nat) :=
  let d := effDict st.dict
  if k > d.length then .error .invalidCode
  else if k = d.length then
    match (rebuildString d st.i).head? with
    | none => .error .emptyFront
    | some b =>
        let d' := d ++ [(st.i, b)]
        .ok (⟨d', k⟩, rebuildString d' k)
  else
    let s := rebuildString d k
    if st.i = dms then .ok (⟨d, k⟩, s)
    else
      match s.head? with
      | none => .error .emptyFront
      | some b => .ok (⟨d ++ [(st.i, b)], k⟩, s)

/-- The whole code-consuming loop of `decompress`, from a given state,
on an already-parsed code list.  Besides the decoded bytes it returns,
for each consumed code, whether the dictionary reset fired at the top of
the iteration consuming it. -/
def decompressRun :
    DecState → List Nat → Except DecodeError (DecState × List Nat × List Bool)
  | st, [] => .ok (st, [], [])
  | st, k :: rest =>
      match decompressStep st k with
      | .error err => .error err
      | .ok p =>
          match decompressRun p.1 rest with
          | .error err => .error err
          | .ok r =>
              .ok (r.1, p.2 ++ r.2.1, decide (st.dict.length = dms) :: r.2.2)

/-- `decompress` on a code list, from the initial state. -/
def decompressCodes (ks : List Nat) : Except DecodeError (List Nat) :=
  (decompressRun ⟨initDict, dms⟩ ks).map fun r => r.2.1

/-- The byte-consuming loop of `decompress`: `is.read(&k, sizeof(CodeType))`
assembles each code from two little-endian bytes; a trailing lone byte is
the short read detected by `if (!is.eof() || is.gcount() != 0)` and fails
with `corruptStream` after all complete codes have been processed. -/
def decompressLoop : DecState → List Nat → Except DecodeError (List Nat)
  | _, [] => .ok []
  | _, [_] => .error .corruptStream
  | st, b0 :: b1 :: rest =>
      match decompressStep st (b0 + 256 * b1) with
      | .error err => .error err
      | .ok p =>
          match decompressLoop p.1 rest with
          | .error err => .error err
          | .ok out => .ok (p.2 ++ out)

/-- `decompress` on a byte stream, from the initial state. -/
def decompressBytes (l : List Nat) : Except DecodeError (List Nat) :=
  decompressLoop ⟨initDict, dms⟩ l

/-! ### Facts about the seeded dictionary -/

theorem initDict_length : initDict.length = 256 := by
  simp [initDict]

theorem charOfIdx_lt (n : Nat) : charOfIdx n < 256 := by
  simp only [charOfIdx]
  omega

theorem charOfIdx_baseCode {b : Nat} (hb : b < 256) : charOfIdx (baseCode b) = b := by
  simp only [charOfIdx, baseCode]
  omega

theorem baseCode_lt (b : Nat) : baseCode b < 256 := by
  simp only [baseCode]
  omega

theorem getElem?_initDict {n : Nat} (hn : n < 256) :
    initDict[n]? = some (dms, charOfIdx n) := by
  simp [initDict, List.getElem?_map, List.getElem?_range hn]

theorem mem_initDict_fst {e : Entry} (he : e ∈ initDict) : e.1 = dms := by
  simp only [initDict, List.mem_map, List.mem_range] at he
  obtain ⟨n, -, rfl⟩ := he
  rfl

theorem dictLookup_initDict {b : Nat} (hb : b < 256) :
    dictLookup initDict (dms, b) = some (baseCode b) := by
  have hmap : dictLookup initDict (dms, b) =
      (List.range 256).findIdx?
        (fun n => ((dms, charOfIdx n) : Entry) == (dms, b)) := by
    simp [dictLookup, initDict, List.findIdx?_map]
    rfl
  rw [hmap, List.findIdx?_eq_some_iff_getElem]
  refine ⟨by simpa using baseCode_lt b, ?_, ?_⟩
  · simp [charOfIdx_baseCode hb]
  · intro j hj
    simp only [List.getElem_range, beq_iff_eq, Prod.mk.injEq, true_and]
    intro hcontra
    have hj' : j < 256 := lt_trans hj (by simpa using baseCode_lt b)
    have : j = baseCode b := by
      simp only [charOfIdx] at hcontra
      simp only [baseCode]
      omega
    omega

theorem dictLookup_initDict_ne {p c : Nat} (hp : p ≠ dms) :
    dictLookup initDict (p, c) = none := by
  rw [dictLookup, List.findIdx?_eq_none_iff]
  intro e he
  have := mem_initDict_fst he
  simp only [beq_eq_false_iff_ne, ne_eq, Prod.ext_iff, not_and]
  intro h1
  exact absurd (this ▸ h1) (by simpa using (Ne.symm hp))

/-! ### Dictionaries whose first 256 entries are the base alphabet -/

/-- A dictionary that begins with the 256 base entries, as every dictionary
reachable in either loop does. -/
def Seeded (d : List Entry) : Prop := d.take 256 = initDict

theorem seeded_initDict : Seeded initDict := by
  unfold Seeded
  rw [← initDict_length, List.take_length]

theorem Seeded.length_le {d : List Entry} (h : Seeded d) : 256 ≤ d.length := by
  have := congrArg List.length h
  simp only [List.length_take, initDict_length] at this
  omega

theorem Seeded.getElem? {d : List Entry} (h : Seeded d) {n : Nat} (hn : n < 256) :
    d[n]? = some (dms, charOfIdx n) := by
  rw [← List.getElem?_take_of_lt hn, h]
  exact getElem?_initDict hn

theorem Seeded.append {d : List Entry} (h : Seeded d) (ext : List Entry) :
    Seeded (d ++ ext) := by
  unfold Seeded
  rw [List.take_append_of_le_length h.length_le]
  exact h

theorem Seeded.lookup_base {d : List Entry} (h : Seeded d) {b : Nat} (hb : b < 256) :
    dictLookup d (dms, b) = some (baseCode b) := by
  have hd : d = LZW.initDict ++ d.drop 256 := by
    conv_lhs => rw [← List.take_append_drop 256 d]
    rw [h]
  rw [hd, dictLookup, List.findIdx?_append]
  have hfound : dictLookup LZW.initDict (dms, b) = some (baseCode b) :=
    dictLookup_initDict hb
  rw [dictLookup] at hfound
  simp [hfound]

theorem seeded_effDict {d : List Entry} (h : Seeded d) : Seeded (effDict d) := by
  unfold effDict
  split
  · exact seeded_initDict
  · exact h

theorem effDict_length_lt {d : List Entry} (h : d.length ≤ dms) :
    (effDict d).length < dms := by
  unfold effDict
  split
  · rw [initDict_length]; norm_num [dms]
  · omega

/-! ### Well-formed dictionaries: prefix codes strictly decrease -/

/-- Every entry of the dictionary points to the sentinel or strictly back:
the invariant making prefix chains terminate. -/
def WF (d : List Entry) : Prop :=
  ∀ n p b, d[n]? = some (p, b) → p = dms ∨ p < n

theorem wf_initDict : WF initDict := by
  intro n p b h
  have hn : n < 256 := by
    have := List.getElem?_eq_some_iff.mp h
    simpa [initDict_length] using this.1
  rw [getElem?_initDict hn] at h
  exact Or.inl (congrArg Prod.fst (Option.some.inj h)).symm

theorem WF.append_singleton {d : List Entry} (h : WF d) {p b : Nat}
    (hp : p = dms ∨ p < d.length) : WF (d ++ [(p, b)]) := by
  intro n q c hq
  rcases Nat.lt_trichotomy n d.length with hn | hn | hn
  · rw [List.getElem?_append_left hn] at hq
    exact h n q c hq
  · subst hn
    rw [List.getElem?_concat_length] at hq
    obtain ⟨hq1, hq2⟩ := Prod.mk.injEq .. ▸ Option.some.inj hq
    exact hq1 ▸ hp
  · rw [List.getElem?_append_right (by omega)] at hq
    have hnone : (([(p, b)] : List Entry)[n - d.length]?) = none := by
      apply List.getElem?_eq_none
      simp only [List.length_cons, List.length_nil]
      omega
    rw [hnone] at hq
    exact absurd hq (Option.noConfusion)

theorem WF.of_append {d ext : List Entry} (h : WF (d ++ ext)) : WF d := by
  intro n p b hn
  have hlt : n < d.length := (List.getElem?_eq_some_iff.mp hn).1
  exact h n p b (by rw [List.getElem?_append_left hlt]; exact hn)

theorem wf_effDict {d : List Entry} (h : WF d) : WF (effDict d) := by
  unfold effDict
  split
  · exact wf_initDict
  · exact h

/-! ### Prefix-chain rebuilding -/

theorem rebuildAux_dms (d : List Entry) (f : Nat) : rebuildAux d f dms = [] := by
  cases f <;> simp [rebuildAux]

theorem rebuildAux_congr_fuel {d : List Entry} (h : WF d) :
    ∀ k f₁ f₂, k < f₁ → k < f₂ → rebuildAux d f₁ k = rebuildAux d f₂ k := by
  intro k
  induction k using Nat.strong_induction_on with
  | _ k ih =>
    intro f₁ f₂ h₁ h₂
    obtain ⟨g₁, rfl⟩ : ∃ g, f₁ = g + 1 := ⟨f₁ - 1, by omega⟩
    obtain ⟨g₂, rfl⟩ : ∃ g, f₂ = g + 1 := ⟨f₂ - 1, by omega⟩
    by_cases hk : k = dms
    · subst hk
      rw [rebuildAux_dms, rebuildAux_dms]
    · simp only [rebuildAux, if_neg hk]
      cases he : d[k]? with
      | none => rfl
      | some e =>
        show rebuildAux d g₁ e.1 ++ [e.2] = rebuildAux d g₂ e.1 ++ [e.2]
        rcases h k e.1 e.2 (by rwa [← Prod.mk.eta (p := e)] at he) with hp | hp
        · rw [hp, rebuildAux_dms, rebuildAux_dms]
        · rw [ih e.1 hp g₁ g₂ (by omega) (by omega)]

theorem rebuildAux_append {d : List Entry} (h : WF d) (ext : List Entry) :
    ∀ f k, k < d.length → rebuildAux (d ++ ext) f k = rebuildAux d f k := by
  intro f
  induction f with
  | zero => intro k _; rfl
  | succ g ih =>
    intro k hk
    by_cases hkd : k = dms
    · subst hkd
      rw [rebuildAux_dms, rebuildAux_dms]
    · simp only [rebuildAux, if_neg hkd, List.getElem?_append_left hk]
      cases he : d[k]? with
      | none => rfl
      | some e =>
        show rebuildAux (d ++ ext) g e.1 ++ [e.2] = rebuildAux d g e.1 ++ [e.2]
        rcases h k e.1 e.2 (by rwa [← Prod.mk.eta (p := e)] at he) with hp | hp
        · rw [hp, rebuildAux_dms, rebuildAux_dms]
        · rw [ih e.1 (by omega)]

theorem rebuildString_append {d : List Entry} (h : WF d) (ext : List Entry)
    {k : Nat} (hk : k < d.length) :
    rebuildString (d ++ ext) k = rebuildString d k := by
  unfold rebuildString
  rw [rebuildAux_append h ext _ k hk]
  exact rebuildAux_congr_fuel h k _ _ (by simp; omega) (by omega)

theorem rebuildString_entry {d : List Entry} (h : WF d) {k p b : Nat}
    (hk : k ≠ dms) (he : d[k]? = some (p, b)) :
    rebuildString d k = rebuildString d p ++ [b] := by
  have hklt : k < d.length := (List.getElem?_eq_some_iff.mp he).1
  have hstep : rebuildString d k = rebuildAux d d.length p ++ [b] := by
    unfold rebuildString
    rw [rebuildAux, if_neg hk, he]
  rw [hstep]
  rcases h k p b he with hp | hp
  · rw [hp, rebuildAux_dms]
    unfold rebuildString
    rw [rebuildAux_dms]
  · unfold rebuildString
    rw [rebuildAux_congr_fuel h p d.length (d.length + 1) (by omega) (by omega)]

theorem rebuildString_ne_nil {d : List Entry} {k : Nat} (hk : k ≠ dms)
    (hklt : k < d.length) : rebuildString d k ≠ [] := by
  unfold rebuildString
  rw [rebuildAux, if_neg hk]
  cases he : d[k]? with
  | none => exact absurd he (by simp [List.getElem?_eq_none_iff]; omega)
  | some e => simp

theorem rebuildString_base {d : List Entry} (h : Seeded d) {b : Nat} (hb : b < 256) :
    rebuildString d (baseCode b) = [b] := by
  have hlt : baseCode b < d.length := lt_of_lt_of_le (baseCode_lt b) h.length_le
  have hne : baseCode b ≠ dms := by
    have := baseCode_lt b
    simp only [dms]
    omega
  unfold rebuildString
  rw [rebuildAux, if_neg hne, h.getElem? (baseCode_lt b), charOfIdx_baseCode hb]
  show rebuildAux d d.length dms ++ [b] = [b]
  rw [rebuildAux_dms]
  rfl

theorem rebuildString_dms (d : List Entry) : rebuildString d dms = [] :=
  rebuildAux_dms d _

theorem effDict_initDict : effDict initDict = initDict := by
  unfold effDict
  split <;> rfl

/-! ### The coupled simulation invariant

At every point where the decoder has consumed all codes emitted so far,
its dictionary is the encoder's dictionary minus the encoder's newest
entry (whose final byte the decoder cannot know yet), its previous code
is the last emitted code, and the missing entry is exactly
`(last code, first byte of the encoder's pending match)`.  The decoder's
capacity reset lags the encoder's by exactly one code, which the
`effDict` on the decoder side absorbs. -/

/-- The bytes of the encoder's pending match (empty when `i` is CLEAR). -/
def msOf (e : EncState) : List Nat :=
  if e.i = dms then [] else rebuildString e.dict e.i

/-- The simulation invariant coupling an encoder state with the decoder
state that has consumed every code emitted so far. -/
structure Inv (e : EncState) (t : DecState) : Prop where
  wf : WF e.dict
  seeded : Seeded e.dict
  len_le : e.dict.length ≤ dms
  rel :
    (t.dict = initDict ∧ t.i = dms ∧ e.dict = initDict ∧
      (e.i = dms ∨ e.i < 256)) ∨
    (t.i ≠ dms ∧ e.i ≠ dms ∧ e.i < e.dict.length ∧
      t.i < (effDict t.dict).length ∧
      (e.dict.length = dms → e.i < 256) ∧
      e.dict = effDict t.dict ++ [(t.i, (rebuildString e.dict e.i).headD 0)])

/-- Consuming the code the encoder just emitted: whenever the encoder is
about to emit its pending code `e.i`, the decoder accepts it, outputs
exactly the encoder's pending match, and its dictionary catches up to the
encoder's (pre-step) dictionary. -/
theorem consume_emitted {e : EncState} {t : DecState} (h : Inv e t)
    (hne : e.i ≠ dms) :
    decompressStep t e.i = .ok (⟨e.dict, e.i⟩, rebuildString e.dict e.i) := by
  obtain ⟨hwf, hseed, hlen, hrel⟩ := h
  obtain ⟨ed, ei⟩ := e
  obtain ⟨td, ti⟩ := t
  simp only at hwf hseed hlen hrel hne ⊢
  rcases hrel with ⟨ht, hti, hed, hei⟩ | ⟨hti, hei, heilt, htilt, hfull, heq⟩
  · -- start configuration: nothing consumed yet
    rcases hei with hei | hei
    · exact absurd hei hne
    · subst ht hti hed
      simp only [decompressStep, effDict_initDict, initDict_length]
      rw [if_neg (by omega), if_neg (by omega)]
      simp
  · -- running configuration
    set hd := (rebuildString ed ei).headD 0 with hhd
    set D := effDict td with hD
    have hlenD : ed.length = D.length + 1 := by
      rw [heq]; simp
    have hWFD : WF D := by
      rw [heq] at hwf
      exact hwf.of_append
    simp only [decompressStep, ← hD]
    rw [if_neg (by omega)]
    by_cases hsr : ei = D.length
    · -- the emitted code is the entry the decoder has not built yet
      rw [if_pos hsr]
      have hq : rebuildString D ti = rebuildString ed ti := by
        rw [heq]
        exact (rebuildString_append hWFD _ htilt).symm
      have hentry : ed[ei]? = some (ti, hd) := by
        rw [heq, hsr]
        exact List.getElem?_concat_length _ _
      have hms : rebuildString ed ei = rebuildString ed ti ++ [hd] :=
        rebuildString_entry hwf hne hentry
      have hqne : rebuildString ed ti ≠ [] :=
        rebuildString_ne_nil hti (by omega)
      obtain ⟨a, as, hq'⟩ := List.exists_cons_of_ne_nil hqne
      have ha : hd = a := by
        rw [hq'] at hms
        rw [hhd, hms]
        rfl
      have hhead : (rebuildString D ti).head? = some hd := by
        rw [hq, hq', ha]
        rfl
      rw [hhead]
      show Except.ok ((⟨D ++ [(ti, hd)], ei⟩ : DecState),
        rebuildString (D ++ [(ti, hd)]) ei) = _
      rw [← heq]
    · -- the emitted code is an entry the decoder already has
      have hlt : ei < D.length := by omega
      rw [if_neg hsr]
      have hs : rebuildString D ei = rebuildString ed ei := by
        rw [heq]
        exact (rebuildString_append hWFD _ hlt).symm
      rw [if_neg hti, hs]
      have hne' : rebuildString ed ei ≠ [] := rebuildString_ne_nil hne heilt
      obtain ⟨a, as, hq'⟩ := List.exists_cons_of_ne_nil hne'
      have ha : hd = a := by
        rw [hhd, hq']
        rfl
      have hhead : (rebuildString ed ei).head? = some hd := by
        rw [hq', ha]
        rfl
      rw [hhead]
      show Except.ok ((⟨D ++ [(ti, hd)], ei⟩ : DecState), rebuildString ed ei) = _
      rw [← heq]

theorem ne_dms_of_lt_256 {n : Nat} (h : n < 256) : n ≠ dms := by
  simp only [dms]
  omega

/-- A hit in the encoder's lookup: no reset can have fired, the found code
is valid and denotes the match extended by `c`, and the coupled invariant
is preserved with the decoder left untouched. -/
theorem hit_sim {e : EncState} {t : DecState} (h : Inv e t) {c j : Nat}
    (hc : c < 256) (hj : dictLookup (effDict e.dict) (e.i, c) = some j) :
    effDict e.dict = e.dict ∧ j ≠ dms ∧ j < e.dict.length ∧
    Inv ⟨e.dict, j⟩ t ∧
    rebuildString e.dict j = msOf e ++ [c] := by
  obtain ⟨hwf, hseed, hlen, hrel⟩ := h
  obtain ⟨ed, ei⟩ := e
  obtain ⟨td, ti⟩ := t
  simp only at hwf hseed hlen hrel hj ⊢
  have hEff : effDict ed = ed := by
    unfold effDict
    rcases hrel with ⟨-, -, hed, -⟩ | ⟨-, hei, -, -, hfull, -⟩
    · rw [if_neg (by rw [hed, initDict_length]; simp [dms])]
    · by_cases hfl : ed.length = dms
      · exfalso
        have hD : effDict ed = initDict := by
          unfold effDict
          rw [if_pos hfl]
        rw [hD, dictLookup_initDict_ne hei] at hj
        exact Option.noConfusion hj
      · rw [if_neg hfl]
  rw [hEff] at hj
  obtain ⟨hjlt, hp, -⟩ := List.findIdx?_eq_some_iff_getElem.mp hj
  have hentry : ed[j]? = some (ei, c) := by
    rw [List.getElem?_eq_getElem hjlt]
    exact congrArg some (by simpa using hp)
  have hjne : j ≠ dms := Nat.ne_of_lt (lt_of_lt_of_le hjlt hlen)
  refine ⟨hEff, hjne, hjlt, ?_, ?_⟩
  · refine ⟨hwf, hseed, hlen, ?_⟩
    rcases hrel with ⟨ht, hti, hed, hei⟩ | ⟨hti, hei, heilt, htilt, hfull, heq⟩
    · rcases hei with hei | hei
      · -- very first byte: the hit is on a base entry
        subst hed hei
        have hbase := seeded_initDict.lookup_base hc
        rw [hbase] at hj
        have hjb : j = baseCode c := (Option.some.inj hj).symm
        exact Or.inl ⟨ht, hti, rfl, Or.inr (hjb ▸ baseCode_lt c)⟩
      · -- a key (i, c) with i ≠ dms is never in the base dictionary
        exfalso
        rw [hed, dictLookup_initDict_ne (ne_dms_of_lt_256 hei)] at hj
        exact Option.noConfusion hj
    · -- running: the pending entry and its first byte are unchanged
      have hms : rebuildString ed j = rebuildString ed ei ++ [c] :=
        rebuildString_entry hwf hjne hentry
      have hmsne : rebuildString ed ei ≠ [] := rebuildString_ne_nil hei heilt
      obtain ⟨a, as, ha⟩ := List.exists_cons_of_ne_nil hmsne
      have hheads : (rebuildString ed j).headD 0 = (rebuildString ed ei).headD 0 := by
        rw [hms, ha]
        rfl
      refine Or.inr ⟨hti, hjne, hjlt, htilt, ?_, ?_⟩
      · intro hfl
        exfalso
        have hinit : effDict ed = initDict := by
          unfold effDict
          rw [if_pos hfl]
        rw [hEff] at hinit
        rw [hinit, initDict_length] at hfl
        simp [dms] at hfl
      · rw [hheads]
        exact heq
  · rcases hrel with ⟨ht, hti, hed, hei⟩ | ⟨hti, hei, heilt, htilt, hfull, heq⟩
    · rcases hei with hei | hei
      · subst hed hei
        have hbase := seeded_initDict.lookup_base hc
        rw [hbase] at hj
        have hjb : j = baseCode c := (Option.some.inj hj).symm
        rw [hjb, rebuildString_base seeded_initDict hc]
        simp [msOf]
      · exfalso
        rw [hed, dictLookup_initDict_ne (ne_dms_of_lt_256 hei)] at hj
        exact Option.noConfusion hj
    · rw [rebuildString_entry hwf hjne hentry]
      simp [msOf, if_neg hei]

/-- A miss in the encoder's lookup: the pending code is a real match
(`i ≠ CLEAR`), the freshly inserted single-byte restart resolves to the
base code of `c`, and after the decoder consumes the emitted code the
coupled invariant is re-established around the new entry `(i, c)`. -/
theorem miss_sim {e : EncState} {t : DecState} (h : Inv e t) {c : Nat}
    (hc : c < 256) (hm : dictLookup (effDict e.dict) (e.i, c) = none) :
    e.i ≠ dms ∧
    (dictLookup (effDict e.dict ++ [(e.i, c)]) (dms, c)).getD 0 = baseCode c ∧
    e.i < (effDict e.dict).length ∧
    rebuildString (effDict e.dict ++ [(e.i, c)]) (baseCode c) = [c] ∧
    Inv ⟨effDict e.dict ++ [(e.i, c)], baseCode c⟩ ⟨e.dict, e.i⟩ := by
  obtain ⟨hwf, hseed, hlen, hrel⟩ := h
  obtain ⟨ed, ei⟩ := e
  obtain ⟨td, ti⟩ := t
  simp only at hwf hseed hlen hrel hm ⊢
  have hseedD : Seeded (effDict ed) := seeded_effDict hseed
  have hne : ei ≠ dms := by
    intro hei
    rw [hei, hseedD.lookup_base hc] at hm
    exact Option.noConfusion hm
  have hseedD' : Seeded (effDict ed ++ [(ei, c)]) := hseedD.append _
  have hgetD : (dictLookup (effDict ed ++ [(ei, c)]) (dms, c)).getD 0 = baseCode c := by
    rw [hseedD'.lookup_base hc]
    rfl
  have heilt' : ei < (effDict ed).length := by
    unfold effDict
    rcases hrel with ⟨-, -, hed, hei⟩ | ⟨-, -, heilt, -, hfull, -⟩
    · rcases hei with hei | hei
      · exact absurd hei hne
      · rw [hed, initDict_length]
        split
        · rw [initDict_length]; exact hei
        · exact hei
    · split
      · rw [initDict_length]
        exact hfull (by assumption)
      · exact heilt
  have hWF' : WF (effDict ed ++ [(ei, c)]) :=
    (wf_effDict hwf).append_singleton (Or.inr heilt')
  have hlenD : (effDict ed).length < dms := effDict_length_lt hlen
  have hbase : rebuildString (effDict ed ++ [(ei, c)]) (baseCode c) = [c] :=
    rebuildString_base hseedD' hc
  refine ⟨hne, hgetD, heilt', hbase, ?_⟩
  refine ⟨hWF', hseedD', by simp; omega, ?_⟩
  refine Or.inr ⟨hne, ne_dms_of_lt_256 (baseCode_lt c), ?_, ?_, ?_, ?_⟩
  · simp only [List.length_append, List.length_cons, List.length_nil]
    have := hseedD.length_le
    have := baseCode_lt c
    omega
  · exact heilt'
  · intro _
    exact baseCode_lt c
  · rw [hbase]
    rfl

/-! ### Unfolding the encoder loop -/

theorem compressStep_hit {e : EncState} {c j : Nat}
    (hj : dictLookup (effDict e.dict) (e.i, c) = some j) :
    compressStep e c = (⟨effDict e.dict, j⟩, none) := by
  simp only [compressStep, hj]

theorem compressStep_miss {e : EncState} {c : Nat}
    (hm : dictLookup (effDict e.dict) (e.i, c) = none) :
    compressStep e c =
      (⟨effDict e.dict ++ [(e.i, c)],
        (dictLookup (effDict e.dict ++ [(e.i, c)]) (dms, c)).getD 0⟩,
       some e.i) := by
  simp only [compressStep, hm]

theorem compressRun_cons (e : EncState) (c : Nat) (rest : List Nat) :
    compressRun e (c :: rest) =
      ((compressRun (compressStep e c).1 rest).1,
        (match (compressStep e c).2 with
          | some k => [(k, decide (e.dict.length = dms))]
          | none => []) ++ (compressRun (compressStep e c).1 rest).2) := rfl

/-- The main loop output together with the final flush, from any state:
this is what remains of the code stream once the codes before state `e`
have been emitted. -/
def compressTail (e : EncState) (l : List Nat) : List (Nat × Bool) :=
  (compressRun e l).2 ++
    (if (compressRun e l).1.i = dms then []
     else [((compressRun e l).1.i, false)])

theorem compressTagged_eq_tail (l : List Nat) :
    compressTagged l = compressTail ⟨initDict, dms⟩ l := rfl

theorem compressTail_cons_hit {e : EncState} {c j : Nat} (rest : List Nat)
    (hj : dictLookup (effDict e.dict) (e.i, c) = some j) :
    compressTail e (c :: rest) = compressTail ⟨effDict e.dict, j⟩ rest := by
  unfold compressTail
  rw [compressRun_cons, compressStep_hit hj]
  rfl

theorem compressTail_cons_miss {e : EncState} {c : Nat} (rest : List Nat)
    (hm : dictLookup (effDict e.dict) (e.i, c) = none) :
    compressTail e (c :: rest) =
      (e.i, decide (e.dict.length = dms)) ::
        compressTail
          ⟨effDict e.dict ++ [(e.i, c)],
            (dictLookup (effDict e.dict ++ [(e.i, c)]) (dms, c)).getD 0⟩ rest := by
  unfold compressTail
  rw [compressRun_cons, compressStep_miss hm]
  rfl

/-- Along the whole loop the dictionary stays within capacity and, once the
match index is a real code, it never becomes the sentinel again. -/
theorem compressRun_bound :
    ∀ (l : List Nat) (e : EncState), e.dict.length ≤ dms → e.i ≠ dms →
      (compressRun e l).1.dict.length ≤ dms ∧ (compressRun e l).1.i ≠ dms := by
  intro l
  induction l with
  | nil => exact fun e hlen hne => ⟨hlen, hne⟩
  | cons c rest ih =>
    intro e hlen hne
    have hDlt : (effDict e.dict).length < dms := effDict_length_lt hlen
    rw [compressRun_cons]
    cases hl : dictLookup (effDict e.dict) (e.i, c) with
    | some j =>
      rw [compressStep_hit hl]
      have hjlt : j < (effDict e.dict).length :=
        (List.findIdx?_eq_some_iff_getElem.mp hl).1
      refine ih ⟨effDict e.dict, j⟩ (le_of_lt hDlt) ?_
      show j ≠ dms
      omega
    | none =>
      rw [compressStep_miss hl]
      have hlen' : (effDict e.dict ++ [(e.i, c)]).length ≤ dms := by
        simp only [List.length_append, List.length_cons, List.length_nil]
        omega
      cases hb : dictLookup (effDict e.dict ++ [(e.i, c)]) (dms, c) with
      | some j' =>
        have hjlt : j' < (effDict e.dict ++ [(e.i, c)]).length :=
          (List.findIdx?_eq_some_iff_getElem.mp hb).1
        refine ih _ hlen' ?_
        show j' ≠ dms
        omega
      | none =>
        refine ih _ hlen' ?_
        show (0 : Nat) ≠ dms
        simp [dms]

theorem compressTail_ne_nil {e : EncState} (l : List Nat)
    (hlen : e.dict.length ≤ dms) (hne : e.i ≠ dms) :
    compressTail e l ≠ [] := by
  unfold compressTail
  have := (compressRun_bound l e hlen hne).2
  rw [if_neg this]
  simp

/-! ### Unfolding the decoder loop -/

theorem decompressRun_nil (st : DecState) :
    decompressRun st [] = .ok (st, [], []) := rfl

theorem decompressRun_cons_ok {st : DecState} {k : Nat}
    {p : DecState × List Nat} (hp : decompressStep st k = .ok p)
    {rest : List Nat} {r : DecState × List Nat × List Bool}
    (hr : decompressRun p.1 rest = .ok r) :
    decompressRun st (k :: rest) =
      .ok (r.1, p.2 ++ r.2.1, decide (st.dict.length = dms) :: r.2.2) := by
  simp only [decompressRun, hp]
  rw [hr]

theorem decompressRun_cons_err {st : DecState} {k : Nat}
    {err : DecodeError} (hp : decompressStep st k = .error err)
    (rest : List Nat) :
    decompressRun st (k :: rest) = .error err := by
  simp only [decompressRun, hp]

/-- Main simulation lemma: from any coupled state, decoding the remaining
code stream (the codes still to be emitted, final flush included) succeeds
and outputs the encoder's pending match followed by the remaining input
bytes; moreover the decoder's per-code reset points are exactly the
encoder's per-code reset points shifted one code later. -/
theorem run_sim :
    ∀ (l : List Nat) (e : EncState) (t : DecState), Inv e t →
      (∀ b ∈ l, b < 256) →
      ∃ tF : DecState,
        decompressRun t ((compressTail e l).map Prod.fst) =
          .ok (tF, msOf e ++ l,
            if compressTail e l = [] then []
            else decide (t.dict.length = dms) ::
              ((compressTail e l).map Prod.snd).dropLast) := by
  intro l
  induction l with
  | nil =>
    intro e t h _
    have htail : compressTail e [] =
        if e.i = dms then [] else [(e.i, false)] := rfl
    by_cases hei : e.i = dms
    · refine ⟨t, ?_⟩
      rw [htail, if_pos hei]
      simp [msOf, hei, decompressRun_nil]
    · refine ⟨⟨e.dict, e.i⟩, ?_⟩
      rw [htail, if_neg hei]
      have hstep := consume_emitted h hei
      rw [List.map_cons, List.map_nil,
        decompressRun_cons_ok hstep (decompressRun_nil _)]
      simp [msOf, hei]
  | cons c rest ih =>
    intro e t h hl
    have hc : c < 256 := hl c (List.mem_cons_self c rest)
    have hrest : ∀ b ∈ rest, b < 256 := fun b hb => hl b (List.mem_cons_of_mem _ hb)
    cases hlk : dictLookup (effDict e.dict) (e.i, c) with
    | some j =>
      obtain ⟨hEff, hjne, hjlt, hInv', hms⟩ := hit_sim h hc hlk
      have htail : compressTail e (c :: rest) = compressTail ⟨e.dict, j⟩ rest := by
        have ht := compressTail_cons_hit rest hlk
        rwa [hEff] at ht
      obtain ⟨tF, hIH⟩ := ih ⟨e.dict, j⟩ t hInv' hrest
      refine ⟨tF, ?_⟩
      rw [htail, hIH]
      have hms' : msOf ⟨e.dict, j⟩ = msOf e ++ [c] := by
        unfold msOf
        rw [if_neg hjne]
        exact hms
      rw [hms']
      simp
    | none =>
      obtain ⟨hne, hgetD, heilt', hbase, hInv'⟩ := miss_sim h hc hlk
      have hE : (⟨effDict e.dict ++ [(e.i, c)],
          (dictLookup (effDict e.dict ++ [(e.i, c)]) (dms, c)).getD 0⟩ : EncState) =
          ⟨effDict e.dict ++ [(e.i, c)], baseCode c⟩ := by
        rw [hgetD]
      have htail : compressTail e (c :: rest) =
          (e.i, decide (e.dict.length = dms)) ::
            compressTail ⟨effDict e.dict ++ [(e.i, c)], baseCode c⟩ rest := by
        rw [compressTail_cons_miss rest hlk, hE]
      obtain ⟨tF, hIH⟩ :=
        ih ⟨effDict e.dict ++ [(e.i, c)], baseCode c⟩ ⟨e.dict, e.i⟩ hInv' hrest
      have htne : compressTail ⟨effDict e.dict ++ [(e.i, c)], baseCode c⟩ rest ≠ [] :=
        compressTail_ne_nil rest hInv'.len_le (ne_dms_of_lt_256 (baseCode_lt c))
      refine ⟨tF, ?_⟩
      rw [htail, List.map_cons]
      have hstep := consume_emitted h hne
      rw [decompressRun_cons_ok hstep hIH]
      have hmsE : msOf ⟨effDict e.dict ++ [(e.i, c)], baseCode c⟩ = [c] := by
        unfold msOf
        rw [if_neg (ne_dms_of_lt_256 (baseCode_lt c))]
        exact hbase
      have hmse : msOf e = rebuildString e.dict e.i := by
        unfold msOf
        rw [if_neg hne]
      rw [hmsE, hmse, if_neg htne]
      have hcons : ((e.i, decide (e.dict.length = dms)) ::
          compressTail ⟨effDict e.dict ++ [(e.i, c)], baseCode c⟩ rest) ≠ [] := by
        simp
      rw [if_neg hcons, List.map_cons]
      have hmapne : (compressTail ⟨effDict e.dict ++ [(e.i, c)], baseCode c⟩ rest).map
          Prod.snd ≠ [] := by
        simpa using htne
      rw [List.dropLast_cons_of_ne_nil hmapne]
      simp


/-! ### From the byte stream to the code stream -/

/-- Reading codes two bytes at a time from a fully serialised code stream
is the same as consuming the codes directly. -/
theorem decompressLoop_flatMap :
    ∀ (ks : List Nat) (st : DecState),
      decompressLoop st (ks.flatMap codeToBytes) =
        (decompressRun st ks).map fun r => r.2.1 := by
  intro ks
  induction ks with
  | nil => intro st; rfl
  | cons k rest ih =>
    intro st
    have hfm : (k :: rest).flatMap codeToBytes =
        k % 256 :: k / 256 :: rest.flatMap codeToBytes := by
      simp [codeToBytes]
    rw [hfm]
    simp only [decompressLoop]
    rw [Nat.mod_add_div]
    cases hp : decompressStep st k with
    | error err => simp [decompressRun, hp, Except.map]
    | ok p =>
      cases hr : decompressRun p.1 rest with
      | error err => simp [decompressRun, hp, hr, ih p.1, Except.map]
      | ok r => simp [decompressRun, hp, hr, ih p.1, Except.map]

/-- The initial coupled state satisfies the invariant. -/
theorem Inv.start : Inv ⟨initDict, dms⟩ ⟨initDict, dms⟩ := by
  refine ⟨wf_initDict, seeded_initDict, ?_, Or.inl ⟨rfl, rfl, rfl, Or.inl rfl⟩⟩
  rw [initDict_length]
  simp [dms]

/-- Code-level round trip. -/
theorem decompressCodes_compressCodes (x : List Nat) (hx : ∀ b ∈ x, b < 256) :
    decompressCodes (compressCodes x) = .ok x := by
  obtain ⟨tF, hrun⟩ := run_sim x ⟨initDict, dms⟩ ⟨initDict, dms⟩ Inv.start hx
  unfold decompressCodes
  rw [compressCodes, compressTagged_eq_tail, hrun]
  simp [msOf, Except.map]


/-- Byte-level round trip (shared helper). -/
theorem roundtrip_bytes (x : List Nat) (hx : ∀ b ∈ x, b < 256) :
    decompressBytes (compressBytes x) = .ok x := by
  unfold decompressBytes compressBytes
  rw [decompressLoop_flatMap]
  have h := decompressCodes_compressCodes x hx
  unfold decompressCodes at h
  exact h

/-- `decompressStep` never signals `corruptStream`: that error belongs to
the end-of-input check alone. -/
theorem decompressStep_ne_corrupt (st : DecState) (k : Nat) :
    decompressStep st k ≠ .error .corruptStream := by
  simp only [decompressStep]
  intro h
  by_cases hgt : k > (effDict st.dict).length
  · rw [if_pos hgt] at h
    exact DecodeError.noConfusion (Except.error.inj h)
  · rw [if_neg hgt] at h
    by_cases hk : k = (effDict st.dict).length
    · rw [if_pos hk] at h
      cases hh : (rebuildString (effDict st.dict) st.i).head? with
      | none =>
        rw [hh] at h
        exact DecodeError.noConfusion (Except.error.inj h)
      | some b =>
        rw [hh] at h
        exact Except.noConfusion h
    · rw [if_neg hk] at h
      by_cases hi : st.i = dms
      · rw [if_pos hi] at h
        exact Except.noConfusion h
      · rw [if_neg hi] at h
        cases hh : (rebuildString (effDict st.dict) k).head? with
        | none =>
          rw [hh] at h
          exact DecodeError.noConfusion (Except.error.inj h)
        | some b =>
          rw [hh] at h
          exact Except.noConfusion h

/-- A successful decode consumes an even number of bytes. -/
theorem decompressLoop_ok_even (st : DecState) (l : List Nat) :
    ∀ y : List Nat, decompressLoop st l = .ok y → l.length % 2 = 0 := by
  induction st, l using decompressLoop.induct with
  | case1 st => intro y _; rfl
  | case2 st b => intro y h; exact Except.noConfusion h
  | case3 st b0 b1 rest err hstep =>
    intro y h
    simp only [decompressLoop, hstep] at h
    exact Except.noConfusion h
  | case4 st b0 b1 rest p hstep err hrec ih =>
    intro y h
    simp only [decompressLoop, hstep, hrec] at h
    exact Except.noConfusion h
  | case5 st b0 b1 rest p hstep out hrec ih =>
    intro y h
    have heven := ih out hrec
    simp only [List.length_cons]
    omega

/-- The decoder fails with `corruptStream` exactly when a lone trailing
byte remains and everything before it decoded successfully. -/
theorem decompressLoop_corrupt_iff (st : DecState) (l : List Nat) :
    decompressLoop st l = .error .corruptStream ↔
      (l.length % 2 = 1 ∧ ∃ y, decompressLoop st l.dropLast = .ok y) := by
  induction st, l using decompressLoop.induct with
  | case1 st => simp [decompressLoop]
  | case2 st b =>
    simp [decompressLoop]
  | case3 st b0 b1 rest err hstep =>
    have hne : err ≠ .corruptStream := by
      intro hc
      exact decompressStep_ne_corrupt st (b0 + 256 * b1) (hc ▸ hstep)
    constructor
    · intro h
      simp only [decompressLoop, hstep] at h
      exact absurd (Except.error.inj h) hne
    · rintro ⟨hodd, y, hy⟩
      exfalso
      cases rest with
      | nil => simp at hodd
      | cons r rs =>
        rw [List.dropLast_cons₂, List.dropLast_cons₂] at hy
        simp only [decompressLoop, hstep] at hy
        exact Except.noConfusion hy
  | case4 st b0 b1 rest p hstep err hrec ih =>
    cases rest with
    | nil => exact absurd hrec (by simp [decompressLoop])
    | cons r rs =>
      have hloop : decompressLoop st (b0 :: b1 :: r :: rs) = .error err := by
        simp only [decompressLoop, hstep, hrec]
      have hdrop : (b0 :: b1 :: r :: rs).dropLast =
          b0 :: b1 :: (r :: rs).dropLast := by
        rw [List.dropLast_cons₂, List.dropLast_cons₂]
      constructor
      · intro h
        rw [hloop] at h
        have herr : err = .corruptStream := Except.error.inj h
        obtain ⟨hodd, y, hy⟩ := ih.mp (herr ▸ hrec)
        refine ⟨?_, p.2 ++ y, ?_⟩
        · simp only [List.length_cons]
          simp only [List.length_cons] at hodd
          omega
        · rw [hdrop]
          simp only [decompressLoop, hstep, hy]
      · rintro ⟨hodd, y, hy⟩
        rw [hdrop] at hy
        simp only [decompressLoop, hstep] at hy
        cases hin : decompressLoop p.1 ((r :: rs).dropLast) with
        | error e2 => rw [hin] at hy; exact Except.noConfusion hy
        | ok out2 =>
          have hcorr : decompressLoop p.1 (r :: rs) = .error .corruptStream := by
            refine ih.mpr ⟨?_, out2, hin⟩
            simp only [List.length_cons]
            simp only [List.length_cons] at hodd
            omega
          rw [hloop, hrec.symm.trans hcorr]
  | case5 st b0 b1 rest p hstep out hrec ih =>
    have hloop : decompressLoop st (b0 :: b1 :: rest) = .ok (p.2 ++ out) := by
      simp only [decompressLoop, hstep, hrec]
    constructor
    · intro h
      rw [hloop] at h
      exact Except.noConfusion h
    · rintro ⟨hodd, -⟩
      exfalso
      have heven := decompressLoop_ok_even p.1 rest out hrec
      simp only [List.length_cons] at hodd
      omega


/-! ### The claims -/

/-- C1.  Round-trip: for every finite byte sequence `x` (including the
empty sequence), decoding the byte stream produced by encoding `x` yields
exactly `x`: `decode(encode(x)) == x`. -/
theorem C1_roundtrip (x : List Nat) (hx : ∀ b ∈ x, b < 256) :
    decompressBytes (compressBytes x) = .ok x :=
  roundtrip_bytes x hx

theorem C1_roundtrip_witness :
    decompressBytes (compressBytes [65, 66, 65, 66, 65]) = .ok [65, 66, 65, 66, 65] :=
  C1_roundtrip [65, 66, 65, 66, 65] (by decide)

/-- C2.  Reset correctness: for every input (in particular those long and
diverse enough to drive the dictionary to its 65535-entry capacity),
decoding the encoder's code stream succeeds and reproduces the input
across any reset boundary, and the decoder's capacity resets happen at
logically identical points to the encoder's: the per-code reset tags of
the decoder are exactly the encoder's per-code reset tags shifted one
code later (the decoder's dictionary grows one entry per code with a
one-entry lag, so its reset for a given dictionary generation fires while
consuming the code following the one at whose production the encoder
reset). -/
theorem C2_reset_sync (x : List Nat) (hx : ∀ b ∈ x, b < 256) :
    ∃ st : DecState,
      decompressRun ⟨initDict, dms⟩ (compressCodes x) =
        .ok (st, x,
          if compressTagged x = [] then []
          else false :: ((compressTagged x).map Prod.snd).dropLast) := by
  obtain ⟨tF, hrun⟩ := run_sim x ⟨initDict, dms⟩ ⟨initDict, dms⟩ Inv.start hx
  refine ⟨tF, ?_⟩
  rw [compressCodes, compressTagged_eq_tail, hrun]
  have hdec : decide ((⟨initDict, dms⟩ : DecState).dict.length = dms) = false := by
    simp [initDict_length, dms]
  rw [hdec]
  simp [msOf]

theorem C2_reset_sync_witness :
    ∃ st : DecState,
      decompressRun ⟨initDict, dms⟩ (compressCodes [65, 65, 65]) =
        .ok (st, [65, 65, 65],
          if compressTagged [65, 65, 65] = [] then []
          else false :: ((compressTagged [65, 65, 65]).map Prod.snd).dropLast) :=
  C2_reset_sync [65, 65, 65] (by decide)

/-- C3 (counterexample).  The claim that "byte value b gets code b" fails
on the code: the seeding loop enumerates `char` from `CHAR_MIN = -128` to
`CHAR_MAX = 127`, so byte value 0 receives code 128, not code 0. -/
theorem C3_counterexample :
    dictLookup initDict (dms, 0) = some 128 ∧
    dictLookup initDict (dms, 0) ≠ some 0 := by
  constructor
  · decide
  · decide

/-- C3 (amended).  Base-alphabet seeding: at start and after every reset
both dictionaries hold exactly 256 base entries, one per byte value
0..255 treated as unsigned, each with prefix equal to the CLEAR sentinel;
the codes 0..255 are assigned in ascending order of the `CHAR_MIN..CHAR_MAX`
(signed char) enumeration, so byte value `b` gets code `(b + 128) % 256`.
The mapping is identical in encoder and decoder: both loops in the source
are the same enumeration, embedded as the single definition `initDict`
used by `compressStep` and `decompressStep` alike (via `effDict`). -/
theorem C3_base_alphabet :
    initDict.length = 256 ∧
    (∀ e ∈ initDict, e.1 = dms) ∧
    (∀ b : Nat, b < 256 → dictLookup initDict (dms, b) = some (baseCode b)) ∧
    (∀ n : Nat, n < 256 → initDict[n]? = some (dms, charOfIdx n)) :=
  ⟨initDict_length, fun _ he => mem_initDict_fst he,
    fun _ hb => dictLookup_initDict hb, fun _ hn => getElem?_initDict hn⟩

theorem C3_base_alphabet_witness :
    dictLookup initDict (dms, 65) = some (baseCode 65) :=
  C3_base_alphabet.2.2.1 65 (by decide)

/-- C4.  InvalidCode rejection: a decoding step fails with `invalidCode`
if and only if the incoming code `k` is strictly greater than the current
dictionary size at that step, measured after any capacity reset
(`effDict`); a code `k ≤ size` is never rejected by this check. -/
theorem C4_invalid_code (st : DecState) (k : Nat) :
    decompressStep st k = .error .invalidCode ↔
      k > (effDict st.dict).length := by
  simp only [decompressStep]
  constructor
  · intro h
    by_contra hgt
    rw [if_neg hgt] at h
    by_cases hk : k = (effDict st.dict).length
    · rw [if_pos hk] at h
      cases hh : (rebuildString (effDict st.dict) st.i).head? with
      | none =>
        rw [hh] at h
        exact DecodeError.noConfusion (Except.error.inj h)
      | some b =>
        rw [hh] at h
        exact Except.noConfusion h
    · rw [if_neg hk] at h
      by_cases hi : st.i = dms
      · rw [if_pos hi] at h
        exact Except.noConfusion h
      · rw [if_neg hi] at h
        cases hh : (rebuildString (effDict st.dict) k).head? with
        | none =>
          rw [hh] at h
          exact DecodeError.noConfusion (Except.error.inj h)
        | some b =>
          rw [hh] at h
          exact Except.noConfusion h
  · intro h
    rw [if_pos h]

/-- C5 (counterexample).  The claim that every stream whose length is not
a multiple of two fails with `CorruptStream` is false: the odd-length
stream `[0xFF, 0xFF, 0x00]` starts with the code 65535, which exceeds the
initial dictionary size 256, so decoding fails with `InvalidCode` before
the end-of-input check is ever reached. -/
theorem C5_counterexample :
    [255, 255, 0].length % 2 = 1 ∧
    decompressBytes [255, 255, 0] = .error .invalidCode ∧
    decompressBytes [255, 255, 0] ≠ .error .corruptStream := by
  refine ⟨rfl, ?_, ?_⟩
  · decide
  · decide

/-- C5 (amended).  CorruptStream rejection: decoding fails with
`corruptStream` exactly when the stream length is not a multiple of the
16-bit code width AND all complete codes before the trailing partial one
decode successfully; in particular a stream consisting solely of complete
16-bit codes is never rejected by this end-of-input check. -/
theorem C5_corrupt_stream (l : List Nat) :
    decompressBytes l = .error .corruptStream ↔
      (l.length % 2 = 1 ∧ ∃ y, decompressBytes l.dropLast = .ok y) :=
  decompressLoop_corrupt_iff ⟨initDict, dms⟩ l

/-- C6.  Empty input: encoding the empty byte sequence emits no code at
all (not even a flush), and decoding the empty stream yields the empty
byte sequence without error. -/
theorem C6_empty :
    compressCodes [] = [] ∧ compressBytes [] = [] ∧
    decompressCodes [] = .ok [] ∧ decompressBytes [] = .ok [] :=
  ⟨rfl, rfl, rfl, rfl⟩

/-- C7.  Single byte: encoding `[0x41]` produces exactly one code, and
that code (193 on this signed-char seeding) is precisely the
base-alphabet code that the dictionary seeding assigned to byte 0x41. -/
theorem C7_single_byte :
    compressCodes [65] = [193] ∧
    dictLookup initDict (dms, 65) = some 193 := by
  constructor
  · decide
  · decide

/-- C8.  Self-reference case: whenever the decoder reads a code `k` equal
to the current dictionary size (after any reset), it first appends the
entry `(prefix = i, byte = first byte of the string decoded for the
previous code i)` and then emits, for the now-valid code `k`, exactly the
previous string followed by that string's own first byte. -/
theorem C8_self_reference {dict : List Entry} {i k b : Nat}
    (hwf : WF (effDict dict))
    (hilt : i < (effDict dict).length)
    (hk : k = (effDict dict).length)
    (hlen : (effDict dict).length < dms)
    (hb : (rebuildString (effDict dict) i).head? = some b) :
    decompressStep ⟨dict, i⟩ k =
      .ok (⟨effDict dict ++ [(i, b)], k⟩,
        rebuildString (effDict dict) i ++ [b]) := by
  simp only [decompressStep]
  rw [if_neg (by omega), if_pos hk, hb]
  show Except.ok ((⟨effDict dict ++ [(i, b)], k⟩ : DecState),
      rebuildString (effDict dict ++ [(i, b)]) k) = _
  have hwf' : WF (effDict dict ++ [(i, b)]) := hwf.append_singleton (Or.inr hilt)
  have hkne : k ≠ dms := by omega
  have hentry : (effDict dict ++ [(i, b)])[k]? = some (i, b) := by
    rw [hk]
    exact List.getElem?_concat_length _ _
  rw [rebuildString_entry hwf' hkne hentry, rebuildString_append hwf _ hilt]

theorem C8_self_reference_witness :
    decompressStep ⟨initDict, 65⟩ 256 =
      .ok (⟨effDict initDict ++ [(65, 193)], 256⟩,
        rebuildString (effDict initDict) 65 ++ [193]) :=
  C8_self_reference
    (by rw [effDict_initDict]; exact wf_initDict)
    (by rw [effDict_initDict, initDict_length]; decide)
    (by rw [effDict_initDict, initDict_length])
    (by rw [effDict_initDict, initDict_length]; decide)
    (by decide)

/-- C9.  Final flush: at end of input the encoder emits the pending match
code `i` as a final code if and only if `i` is not the CLEAR sentinel;
for every non-empty input exactly one trailing code is emitted, and for
the empty input none is. -/
theorem C9_final_flush (l : List Nat) (hl : ∀ b ∈ l, b < 256) :
    (compressCodes l =
      ((compressRun ⟨initDict, dms⟩ l).2).map Prod.fst ++
        (if (compressRun ⟨initDict, dms⟩ l).1.i = dms then []
         else [(compressRun ⟨initDict, dms⟩ l).1.i])) ∧
    (l = [] → compressCodes l = []) ∧
    (l ≠ [] →
      (compressRun ⟨initDict, dms⟩ l).1.i ≠ dms ∧
      compressCodes l =
        ((compressRun ⟨initDict, dms⟩ l).2).map Prod.fst ++
          [(compressRun ⟨initDict, dms⟩ l).1.i]) := by
  have hgen : compressCodes l =
      ((compressRun ⟨initDict, dms⟩ l).2).map Prod.fst ++
        (if (compressRun ⟨initDict, dms⟩ l).1.i = dms then []
         else [(compressRun ⟨initDict, dms⟩ l).1.i]) := by
    rw [compressCodes, compressTagged_eq_tail]
    unfold compressTail
    by_cases hi : (compressRun ⟨initDict, dms⟩ l).1.i = dms
    · rw [if_pos hi, if_pos hi]
      simp
    · rw [if_neg hi, if_neg hi]
      simp
  refine ⟨hgen, ?_, ?_⟩
  · intro h
    subst h
    rfl
  · intro hne
    obtain ⟨c, rest, rfl⟩ := List.exists_cons_of_ne_nil hne
    have hc : c < 256 := hl c (List.mem_cons_self c rest)
    have hlk : dictLookup (effDict initDict) (dms, c) = some (baseCode c) := by
      rw [effDict_initDict]
      exact dictLookup_initDict hc
    have hstep : compressStep ⟨initDict, dms⟩ c =
        (⟨effDict initDict, baseCode c⟩, none) := compressStep_hit hlk
    rw [effDict_initDict] at hstep
    have hbound := (compressRun_bound rest ⟨initDict, baseCode c⟩
      (by rw [initDict_length]; simp [dms]) (ne_dms_of_lt_256 (baseCode_lt c))).2
    have hrun : compressRun ⟨initDict, dms⟩ (c :: rest) =
        ((compressRun ⟨initDict, baseCode c⟩ rest).1,
          (compressRun ⟨initDict, baseCode c⟩ rest).2) := by
      rw [compressRun_cons, hstep]
      rfl
    have hi : (compressRun ⟨initDict, dms⟩ (c :: rest)).1.i ≠ dms := by
      rw [hrun]
      exact hbound
    refine ⟨hi, ?_⟩
    rw [hgen, if_neg hi]

theorem C9_final_flush_witness :
    (compressRun ⟨initDict, dms⟩ [65]).1.i ≠ dms ∧
    compressCodes [65] =
      ((compressRun ⟨initDict, dms⟩ [65]).2).map Prod.fst ++
        [(compressRun ⟨initDict, dms⟩ [65]).1.i] :=
  (C9_final_flush [65] (by decide)).2.2 (by decide)

/-- C10.  Decoder totality precondition: the validation only rejects
codes strictly greater than the dictionary size, so the byte stream
`[0x00, 0x01]` (the single code 256) passes validation with the previous
code still CLEAR, and the self-reference branch then takes the first byte
of the empty string rebuilt for CLEAR — the C++ `front()` on an empty
vector, modelled as the explicit outcome `emptyFront`; this branch is
unreachable for every stream produced by the encoder, on which decoding
returns cleanly. -/
theorem C10_empty_front :
    decompressBytes [0, 1] = .error .emptyFront ∧
    ∀ x : List Nat, (∀ b ∈ x, b < 256) →
      decompressBytes (compressBytes x) ≠ .error .emptyFront := by
  constructor
  · decide
  · intro x hx h
    rw [roundtrip_bytes x hx] at h
    exact Except.noConfusion h

theorem C10_empty_front_witness :
    decompressBytes (compressBytes [65]) ≠ .error .emptyFront :=
  C10_empty_front.2 [65] (by decide)

end LZW
